import Mathlib

/-
Verification of the Sticker Factory label-image pipeline
(src/image_utils.py), via a shallow embedding.

Grayscale point operations (apply_threshold, apply_levels) act on flat
lists of 8-bit samples, mirroring PIL image.point which maps each sample
through a 256-entry lookup table.  Geometric operations act on a PImage
record of width, height and a pixel accessor returning an RGB triple.

Python float arithmetic in the embedded numeric formulas is replaced by
exact integer arithmetic.  For every formula below the IEEE-double
computation of the source agrees with the exact value on the verified
parameter ranges: the levels LUT entry int((i - b)/(w - b)*255) equals
(i - b)*255/(w - b) in floor division for all 0 <= b < w <= 255 and
b < i < w (checked exhaustively), and int(50/25.4*300) = 590 equals the
exact floor.  The aspect-ratio height claim carries a one-pixel
tolerance that absorbs any residual truncation-boundary discrepancy.
-/

namespace StickerFactory

/-- An in-memory raster buffer: width, height and a pixel accessor
returning an RGB triple.  The accessor contract covers coordinates
x < width and y < height. -/
structure PImage where
  width : Nat
  height : Nat
  pix : Nat → Nat → Nat × Nat × Nat

/-- PIL Image.new with mode RGB: a constant-colour canvas; with no
colour argument PIL fills with black, that is (0, 0, 0). -/
def newRGB (w h : Nat) (c : Nat × Nat × Nat) : PImage :=
  { width := w, height := h, pix := fun _ _ => c }

/-- dst.paste(src, (x0, y0)): pixels inside the pasted rectangle come
from src, the rest keep dst.  PIL clips the rectangle at the canvas
border; the accessor is only consulted inside the canvas, where the two
agree. -/
def paste (dst src : PImage) (x0 y0 : Nat) : PImage :=
  { width := dst.width, height := dst.height,
    pix := fun x y =>
      if x0 ≤ x ∧ x < x0 + src.width ∧ y0 ≤ y ∧ y < y0 + src.height then
        src.pix (x - x0) (y - y0)
      else dst.pix x y }

/-- image.resize((w, h)): the output dimensions are exactly (w, h) and
the samples are drawn from the source through the resampling filter.
The filter kernel weights (LANCZOS or default) are modelled by index
remapping: no property below constrains the resampled sample values,
only output dimensions and regions the resize never touches. -/
def resize (src : PImage) (w h : Nat) : PImage :=
  { width := w, height := h,
    pix := fun x y => src.pix (x * src.width / w) (y * src.height / h) }

/-- image.crop((l, t, r, b)): the (r - l) by (b - t) window of the
source at offset (l, t). -/
def crop (img : PImage) (l t r b : Nat) : PImage :=
  { width := r - l, height := b - t,
    pix := fun x y => img.pix (l + x) (t + y) }

/-- image.convert to mode L: the ITU-R 601-2 luma transform used by PIL,
L = (299 R + 587 G + 114 B) / 1000, truncated. -/
def convertL (img : PImage) : PImage :=
  { width := img.width, height := img.height,
    pix := fun x y =>
      match img.pix x y with
      | (r, g, b) =>
        let l := (299 * r + 587 * g + 114 * b) / 1000
        (l, l, l) }

/-- image.convert to mode 1 with Floyd-Steinberg dithering: a
size-preserving 1-bit conversion.  The error-diffusion residuals are
abstracted to a plain cutoff (no property below constrains the dithered
samples); the dimensions are preserved exactly as in PIL. -/
def ditherFS (img : PImage) : PImage :=
  { width := img.width, height := img.height,
    pix := fun x y =>
      if 128 ≤ (img.pix x y).1 then (255, 255, 255) else (0, 0, 0) }

/-- preper_image (src/image_utils.py lines 9-29): if the width differs
from the label width, resize to (label_width, int(label_width / width *
height)); then return the grayscale conversion and its dithered 1-bit
version.  The RGBA branch (alpha-composite onto white, then convert to
RGB) is size-preserving and the model carries RGB pixels throughout;
int(label_width / width * height) equals the floor division below. -/
def preper_image (image : PImage) (label_width : Nat) : PImage × PImage :=
  let image :=
    if image.width ≠ label_width then
      resize image label_width (label_width * image.height / image.width)
    else image
  let grayscale_image := convertL image
  let dithered_image := ditherFS grayscale_image
  (grayscale_image, dithered_image)

/-- apply_threshold (lines 32-37): samples strictly greater than the
threshold become 255 (white), the rest 0 (black); this is image.point
with lut i = 255 if i > threshold else 0, output in mode 1 whose
samples read back as 0 or 255. -/
def apply_threshold (img : List Nat) (threshold : Nat) : List Nat :=
  img.map (fun p => if threshold < p then 255 else 0)

/-- Pixel target width computed by resize_image_to_width (lines 42-43):
int(target_width_mm / 25.4 * current_dpi), that is the truncation of
mm * dpi / 25.4, written exactly as mm * dpi * 10 / 254 in floor
division. -/
def targetWidthPx (target_width_mm current_dpi : Nat) : Nat :=
  target_width_mm * current_dpi * 10 / 254

/-- Modelled from the spec: section 4.1 and section 8 state the pixel
target width as round(mm / 25.4 * dpi), rounding to nearest.  This
definition follows the words of the spec, for comparison with
targetWidthPx which embeds the source. -/
def specTargetWidthPx (target_width_mm current_dpi : Nat) : Int :=
  round ((target_width_mm : ℚ) * current_dpi * 10 / 254)

/-- resize_image_to_width (lines 40-56): scale to the computed pixel
target width, preserving aspect ratio with new_height =
int(height * target_width_px / width); if the target is narrower than
the label, centre the result on a white RGB canvas of the full label
width; otherwise return the resized buffer as is. -/
def resize_image_to_width (image : PImage)
    (target_width_mm label_width current_dpi : Nat) : PImage :=
  let target_width_px := targetWidthPx target_width_mm current_dpi
  let new_height := image.height * target_width_px / image.width
  let resized_image := resize image target_width_px new_height
  if target_width_px < label_width then
    paste (newRGB label_width new_height (255, 255, 255)) resized_image
      ((label_width - target_width_px) / 2) 0
  else resized_image

/-- One entry of the apply_levels lookup table (lines 74-82): 0 at or
below the black point, 255 at or above the white point, otherwise the
linear map int((i - black)/(white - black) * 255); none marks the
ZeroDivisionError path of the division by white - black. -/
def levelsLut (black white i : Nat) : Option Nat :=
  if i ≤ black then some 0
  else if white ≤ i then some 255
  else if white = black then none
  else some ((i - black) * 255 / (white - black))

/-- apply_levels (lines 69-84): build the 256-entry lookup table, a
Python loop over range(256) that propagates a ZeroDivisionError if any
entry raises, then map every sample through it (image.point). -/
def apply_levels (img : List Nat) (black white : Nat) : Option (List Nat) :=
  ((List.range 256).mapM (levelsLut black white)).map
    (fun lut => img.map (fun p => lut.getD p 0))

/-- img_concat_v (lines 96-105): a new RGB canvas of size
(im1.width, im1.height + image_width), black by default; paste im1 at
the origin, then im2 resized to an image_width square pasted below. -/
def img_concat_v (im1 im2 : PImage) (image_width : Nat) : PImage :=
  let dst := newRGB im1.width (im1.height + image_width) (0, 0, 0)
  let dst := paste dst im1 0 0
  let im2r := resize im2 image_width image_width
  paste dst im2r 0 im1.height

/-- determine_tile_rows (lines 108-112): always return 2 rows to save
paper. -/
def determine_tile_rows (image : PImage) (label_width : Nat) : Nat := 2

/-- The resize step at the head of split_image_into_tiles (lines
133-138): bring the image to the label width preserving aspect ratio,
with new_height = int(label_width / width * height). -/
def resizedForTiling (image : PImage) (label_width : Nat) : PImage :=
  if image.width ≠ label_width then
    resize image label_width (label_width * image.height / image.width)
  else image

/-- One iteration of the tiling loop (lines 149-157): crop the next
tile of height tile_height, plus the remainder on the last row, at the
running y offset, and append it. -/
def tileStep (image : PImage) (width tile_height remainder num_rows : Nat)
    (st : Nat × List PImage) (i : Nat) : Nat × List PImage :=
  let current_tile_height :=
    tile_height + (if i = num_rows - 1 then remainder else 0)
  let tile := crop image 0 st.1 width (st.1 + current_tile_height)
  (st.1 + current_tile_height, st.2 ++ [tile])

/-- split_image_into_tiles (lines 115-160): resize to the label width,
split vertically into num_rows tiles of height height / num_rows, the
remainder going entirely to the last tile.  Python raises
ZeroDivisionError on num_rows = 0 (height // 0), modelled as none; the
RGBA pre-step is size-preserving as in preper_image. -/
def split_image_into_tiles (image : PImage) (label_width num_rows : Nat) :
    Option (List PImage) :=
  if num_rows = 0 then none
  else
    let image := resizedForTiling image label_width
    let width := image.width
    let height := image.height
    let tile_height := height / num_rows
    let remainder := height % num_rows
    some (((List.range num_rows).foldl
      (tileStep image width tile_height remainder num_rows) (0, [])).2)

/-- A concrete constant-colour buffer used to instantiate the verified
statements on explicit inputs. -/
def solidImg (w h : Nat) : PImage :=
  { width := w, height := h, pix := fun _ _ => (90, 100, 110) }

/-- The two tiles that split_image_into_tiles produces on a 591 by 1001
buffer already at label width 591 with two rows: heights 500 and 501. -/
def tsW : List PImage :=
  [crop (solidImg 591 1001) 0 0 591 500,
   crop (solidImg 591 1001) 0 500 591 1001]

/-- C5: determine_tile_rows returns 2 for every image and every label
width, independent of dimensions, aspect ratio or label width. -/
theorem determine_tile_rows_constant (image : PImage) (label_width : Nat) :
    determine_tile_rows image label_width = 2 := rfl

lemma mapM_eq_map_of_forall_some {α β : Type} (f : α → Option β) (g : α → β) :
    ∀ (l : List α), (∀ a ∈ l, f a = some (g a)) → l.mapM f = some (l.map g) := by
  intro l
  induction l with
  | nil => intro _; rfl
  | cons a as ih =>
      intro h
      rw [List.map_cons, List.mapM_cons, h a (by simp),
        ih (fun b hb => h b (by simp [hb]))]
      rfl

lemma getD_range_map (g : Nat → Nat) (p n : Nat) (hp : p < n) :
    ((List.range n).map g).getD p 0 = g p := by
  have h1 : ((List.range n).map g)[p]? = some (g p) := by
    rw [List.getElem?_map, List.getElem?_range hp]
    rfl
  rw [List.getD_eq_getElem?_getD, h1]
  rfl

lemma levelsLut_id (i : Nat) (hi : i < 256) : levelsLut 0 255 i = some i := by
  unfold levelsLut
  rcases Nat.lt_or_ge i 255 with h | h
  · rcases Nat.eq_zero_or_pos i with h0 | h0
    · simp [h0]
    · have h1 : ¬ i ≤ 0 := by omega
      have h2 : ¬ 255 ≤ i := by omega
      simp [h1, h2, Nat.mul_div_cancel i (by omega : (0:Nat) < 255)]
  · have h255 : i = 255 := by omega
    simp [h255]

lemma levelsLut_degenerate (b i : Nat) :
    levelsLut b b i = some (if i ≤ b then 0 else 255) := by
  unfold levelsLut
  by_cases h : i ≤ b
  · simp [h]
  · have hb : b ≤ i := by omega
    simp [h, hb]

/-- C6: apply_levels with black point 0 and white point 255 is the
identity on every 8-bit grayscale sample list. -/
theorem apply_levels_identity (img : List Nat) (h : ∀ p ∈ img, p ≤ 255) :
    apply_levels img 0 255 = some img := by
  unfold apply_levels
  rw [mapM_eq_map_of_forall_some (levelsLut 0 255) (fun i => i) (List.range 256)
    (fun i hi => levelsLut_id i (List.mem_range.mp hi))]
  have hmap : img.map (fun p => ((List.range 256).map (fun i => i)).getD p 0) = img := by
    have := List.map_congr_left
      (fun p hp => getD_range_map (fun i => i) p 256 (by have := h p hp; omega))
    exact this.trans (List.map_id img)
  simpa using hmap

/-- C6 witness: the identity holds at a concrete three-sample image. -/
theorem apply_levels_identity_witness :
    apply_levels [0, 17, 255] 0 255 = some [0, 17, 255] :=
  apply_levels_identity [0, 17, 255] (by decide)

set_option maxRecDepth 4096 in
/-- C1 counterexample: with black point equal to white point (both 128)
apply_levels returns a result, some [0] on the one-sample image [100];
it does not fail, because with equal points every lookup-table index
falls in the two clamping branches and the division is never reached. -/
theorem apply_levels_equal_points_returns :
    apply_levels [100] 128 128 = some [0] := by decide

/-- C1 amended: with black point equal to white point, apply_levels
returns normally, mapping every sample at or below the common point to
0 and every sample above it to 255. -/
theorem apply_levels_degenerate (img : List Nat) (b : Nat)
    (h : ∀ p ∈ img, p ≤ 255) :
    apply_levels img b b = some (img.map fun p => if p ≤ b then 0 else 255) := by
  unfold apply_levels
  rw [mapM_eq_map_of_forall_some (levelsLut b b)
    (fun i => if i ≤ b then 0 else 255) (List.range 256)
    (fun i _ => levelsLut_degenerate b i)]
  have hmap : img.map (fun p =>
      ((List.range 256).map (fun i => if i ≤ b then 0 else 255)).getD p 0)
      = img.map (fun p => if p ≤ b then 0 else 255) :=
    List.map_congr_left (fun p hp =>
      getD_range_map (fun i => if i ≤ b then 0 else 255) p 256
        (by have := h p hp; omega))
  simpa using hmap

/-- C1 amended witness: at black point and white point both 128 the
two-sample image maps to 0 and 255. -/
theorem apply_levels_degenerate_witness :
    apply_levels [100, 200] 128 128 = some [0, 255] := by
  rw [apply_levels_degenerate [100, 200] 128 (by decide)]
  decide

/-- C7: apply_threshold is idempotent at a fixed cutoff on 8-bit
sample lists: thresholding an already-thresholded image at the same
cutoff reproduces the same output. -/
theorem apply_threshold_idempotent (img : List Nat) (t : Nat) (ht : t ≤ 255)
    (h : ∀ p ∈ img, p ≤ 255) :
    apply_threshold (apply_threshold img t) t = apply_threshold img t := by
  unfold apply_threshold
  rw [List.map_map]
  apply List.map_congr_left
  intro p hp
  have hp255 := h p hp
  by_cases hc : t < p
  · have h255 : t < 255 := by omega
    simp [Function.comp, hc, h255]
  · simp [Function.comp, hc]

/-- C7 witness: idempotence at cutoff 128 on a concrete image. -/
theorem apply_threshold_idempotent_witness :
    apply_threshold (apply_threshold [0, 100, 255] 128) 128
      = apply_threshold [0, 100, 255] 128 :=
  apply_threshold_idempotent [0, 100, 255] 128 (by decide) (by decide)

/-- C3 counterexample: at 50 mm and 300 DPI the source computes 590
pixels (truncation of 590.55), while the round-to-nearest formula of
the spec gives 591; the two disagree at this concrete input. -/
theorem targetWidthPx_not_round :
    (targetWidthPx 50 300 : Int) ≠ specTargetWidthPx 50 300 := by
  have h1 : (targetWidthPx 50 300 : Int) = 590 := by
    norm_num [targetWidthPx]
  have h2 : specTargetWidthPx 50 300 = 591 := by
    rw [specTargetWidthPx, round_eq]
    have hx : ((50 : Nat) : ℚ) * ((300 : Nat) : ℚ) * 10 / 254 + 1 / 2
        = 150127 / 254 := by
      push_cast
      norm_num
    rw [hx, Int.floor_eq_iff]
    constructor
    · norm_num
    · norm_num
  rw [h1, h2]
  decide

/-- C3 amended: the pixel target width is the floor (Python int
truncation) of mm / 25.4 * dpi, not the rounding to nearest; at 300 DPI
and 50 mm it is 590 pixels. -/
theorem targetWidthPx_floor :
    (∀ target_width_mm current_dpi : Nat,
      targetWidthPx target_width_mm current_dpi
        = Nat.floor ((target_width_mm : ℚ) * current_dpi * 10 / 254))
    ∧ targetWidthPx 50 300 = 590 := by
  constructor
  · intro mm dpi
    have h1 : ((mm : ℚ) * dpi * 10) = ((mm * dpi * 10 : Nat) : ℚ) := by
      push_cast
      ring
    have h2 : ((254 : ℚ)) = ((254 : Nat) : ℚ) := by norm_num
    rw [targetWidthPx, h1, h2, Nat.floor_div_nat, Nat.floor_natCast]
  · rfl

lemma foldl_tiles_heights (image : PImage) (width th r n : Nat) :
    ∀ (l : List Nat) (y0 : Nat) (acc : List PImage),
      ((l.foldl (tileStep image width th r n) (y0, acc)).2).map PImage.height
        = acc.map PImage.height
          ++ l.map (fun i => th + (if i = n - 1 then r else 0)) := by
  intro l
  induction l with
  | nil => intro y0 acc; simp
  | cons a as ih =>
      intro y0 acc
      rw [List.foldl_cons, ih]
      simp [tileStep, crop]

lemma foldl_tiles_widths (image : PImage) (width th r n : Nat) :
    ∀ (l : List Nat) (y0 : Nat) (acc : List PImage),
      ((l.foldl (tileStep image width th r n) (y0, acc)).2).map PImage.width
        = acc.map PImage.width ++ l.map (fun _ => width) := by
  intro l
  induction l with
  | nil => intro y0 acc; simp
  | cons a as ih =>
      intro y0 acc
      rw [List.foldl_cons, ih]
      simp [tileStep, crop]

lemma tile_heights_closed (H m : Nat) :
    (List.range (m + 1)).map
        (fun i => H / (m + 1) + if i = m + 1 - 1 then H % (m + 1) else 0)
      = List.replicate m (H / (m + 1)) ++ [H - m * (H / (m + 1))] := by
  have hdm := Nat.div_add_mod H (m + 1)
  have hexp : (m + 1) * (H / (m + 1)) = m * (H / (m + 1)) + H / (m + 1) := by
    ring
  rw [List.range_succ, List.map_append]
  congr 1
  · refine List.ext_getElem (by simp) ?_
    intro i h1 h2
    have hi : i < m := by simpa using h1
    have hne : i ≠ m := by omega
    simp [hne]
  · have hq : H / (m + 1) + H % (m + 1) = H - m * (H / (m + 1)) := by
      generalize hgq : H / (m + 1) = q at hdm hexp ⊢
      generalize hgr : H % (m + 1) = r at hdm ⊢
      omega
    simp [hq]

lemma tile_heights_sum (H m : Nat) :
    (List.replicate m (H / (m + 1)) ++ [H - m * (H / (m + 1))]).sum = H := by
  have hdm := Nat.div_add_mod H (m + 1)
  have hexp : (m + 1) * (H / (m + 1)) = m * (H / (m + 1)) + H / (m + 1) := by
    ring
  rw [List.sum_append, List.sum_replicate, smul_eq_mul]
  simp only [List.sum_cons, List.sum_nil, Nat.add_zero]
  generalize hgq : H / (m + 1) = q at hdm hexp ⊢
  generalize hgr : H % (m + 1) = r at hdm
  omega

/-- C4: for a row count of at least 1, split_image_into_tiles returns
exactly num_rows tiles whose heights sum exactly to the height H of
the image after the resize to the label width; every tile but the last
has height H / num_rows and the last has height
H - (num_rows - 1) * (H / num_rows). -/
theorem split_image_into_tiles_heights (image : PImage)
    (label_width num_rows : Nat) (hN : 1 ≤ num_rows) :
    ∃ ts, split_image_into_tiles image label_width num_rows = some ts
      ∧ ts.length = num_rows
      ∧ (ts.map PImage.height).sum
          = (resizedForTiling image label_width).height
      ∧ ts.map PImage.height
          = List.replicate (num_rows - 1)
              ((resizedForTiling image label_width).height / num_rows)
            ++ [(resizedForTiling image label_width).height
                - (num_rows - 1)
                  * ((resizedForTiling image label_width).height / num_rows)] := by
  have hN0 : num_rows ≠ 0 := by omega
  obtain ⟨m, rfl⟩ : ∃ m, num_rows = m + 1 := ⟨num_rows - 1, by omega⟩
  refine ⟨((List.range (m + 1)).foldl
      (tileStep (resizedForTiling image label_width)
        (resizedForTiling image label_width).width
        ((resizedForTiling image label_width).height / (m + 1))
        ((resizedForTiling image label_width).height % (m + 1)) (m + 1))
      (0, [])).2, ?_, ?_, ?_, ?_⟩
  case intro.refine_1 => rw [split_image_into_tiles, if_neg hN0]
  all_goals
    have hmap := foldl_tiles_heights (resizedForTiling image label_width)
      (resizedForTiling image label_width).width
      ((resizedForTiling image label_width).height / (m + 1))
      ((resizedForTiling image label_width).height % (m + 1)) (m + 1)
      (List.range (m + 1)) 0 []
  case intro.refine_2 =>
    simp only [List.map_nil, List.nil_append] at hmap
    have hlen := congrArg List.length hmap
    simpa using hlen
  case intro.refine_3 =>
    simp only [List.map_nil, List.nil_append] at hmap
    rw [hmap, tile_heights_closed (resizedForTiling image label_width).height m]
    exact tile_heights_sum (resizedForTiling image label_width).height m
  case intro.refine_4 =>
    simp only [List.map_nil, List.nil_append] at hmap
    rw [hmap, tile_heights_closed (resizedForTiling image label_width).height m]
    simp [Nat.add_sub_cancel]

/-- C4 witness: a 591 by 1001 image at the label width splits into two
tiles of heights 500 and 501, which sum to 1001. -/
theorem split_image_into_tiles_heights_witness :
    ∃ ts, split_image_into_tiles (solidImg 591 1001) 591 2 = some ts
      ∧ ts.length = 2
      ∧ (ts.map PImage.height).sum
          = (resizedForTiling (solidImg 591 1001) 591).height
      ∧ ts.map PImage.height
          = List.replicate 1
              ((resizedForTiling (solidImg 591 1001) 591).height / 2)
            ++ [(resizedForTiling (solidImg 591 1001) 591).height
                - 1 * ((resizedForTiling (solidImg 591 1001) 591).height / 2)] :=
  split_image_into_tiles_heights (solidImg 591 1001) 591 2 (by decide)

lemma natDiv_near_round (a w : Nat) :
    |((a / w : Nat) : Int) - round ((a : ℚ) / w)| ≤ 1 := by
  have h0 : (0 : ℚ) ≤ (a : ℚ) / w := by positivity
  have hfl : ((a / w : Nat) : Int) = ⌊(a : ℚ) / w⌋ := by
    rw [← Int.natCast_floor_eq_floor h0, Nat.floor_div_eq_div]
  have hlow : ⌊(a : ℚ) / w⌋ ≤ round ((a : ℚ) / w) := by
    rw [round_eq]
    exact Int.floor_mono (by linarith)
  have hhigh : round ((a : ℚ) / w) ≤ ⌊(a : ℚ) / w⌋ + 1 := by
    rw [round_eq]
    calc ⌊(a : ℚ) / w + 1 / 2⌋ ≤ ⌊(a : ℚ) / w + 1⌋ :=
          Int.floor_mono (by linarith)
      _ = ⌊(a : ℚ) / w⌋ + 1 := by
          rw [show ((1 : ℚ)) = ((1 : ℤ) : ℚ) by norm_num, Int.floor_add_int]
  rw [hfl, abs_le]
  omega

/-- C8: the resize steps of the pipeline preserve aspect ratio to
within one pixel: for a source of positive width w and height h scaled
to target width t, the content height int(t / w * h) computed by
preper_image and by resize_image_to_width differs from round(t / w * h)
by at most 1. -/
theorem resized_height_near_round (image : PImage)
    (target_width_mm label_width current_dpi : Nat) (hw : 0 < image.width) :
    |(((preper_image image label_width).1.height : Int))
        - round ((label_width : ℚ) / image.width * image.height)| ≤ 1
    ∧ |(((resize_image_to_width image target_width_mm label_width
            current_dpi).height : Int))
        - round ((targetWidthPx target_width_mm current_dpi : ℚ)
            / image.width * image.height)| ≤ 1 := by
  constructor
  · by_cases h : image.width = label_width
    · have hh : (preper_image image label_width).1.height = image.height := by
        simp [preper_image, convertL, h]
      rw [hh, h]
      have hlw : (0 : ℚ) < label_width := by
        have := h ▸ hw
        exact_mod_cast this
      rw [div_self (ne_of_gt hlw), one_mul, round_natCast]
      simp
    · have hh : (preper_image image label_width).1.height
          = label_width * image.height / image.width := by
        simp [preper_image, convertL, resize, h]
      rw [hh]
      have hcast : ((label_width : ℚ)) / image.width * image.height
          = (((label_width * image.height : Nat)) : ℚ) / image.width := by
        push_cast
        ring
      rw [hcast]
      exact natDiv_near_round (label_width * image.height) image.width
  · have hh : (resize_image_to_width image target_width_mm label_width
        current_dpi).height
        = image.height * targetWidthPx target_width_mm current_dpi
            / image.width := by
      by_cases hc : targetWidthPx target_width_mm current_dpi < label_width
      · simp [resize_image_to_width, paste, newRGB, resize, hc]
      · simp [resize_image_to_width, resize, hc]
    rw [hh]
    have hcast : ((targetWidthPx target_width_mm current_dpi : ℚ))
          / image.width * image.height
        = (((image.height * targetWidthPx target_width_mm current_dpi : Nat)) : ℚ)
            / image.width := by
      push_cast
      ring
    rw [hcast]
    exact natDiv_near_round _ image.width

/-- C8 witness: the height bound instantiated on a 100 by 80 source,
label width 591, 50 mm target at 300 DPI. -/
theorem resized_height_near_round_witness :
    |(((preper_image (solidImg 100 80) 591).1.height : Int))
        - round (((591 : Nat) : ℚ) / (solidImg 100 80).width
            * (solidImg 100 80).height)| ≤ 1
    ∧ |(((resize_image_to_width (solidImg 100 80) 50 591 300).height : Int))
        - round ((targetWidthPx 50 300 : ℚ) / (solidImg 100 80).width
            * (solidImg 100 80).height)| ≤ 1 :=
  resized_height_near_round (solidImg 100 80) 50 591 300 (by decide)

/-- C9: img_concat_v returns a buffer of width im1.width and height
im1.height + image_width, with im2 resized to an image_width square
pasted directly below im1; inside the canvas the pasted block agrees
pixelwise with the resized im2. -/
theorem img_concat_v_spec (im1 im2 : PImage) (image_width : Nat) :
    (img_concat_v im1 im2 image_width).width = im1.width
    ∧ (img_concat_v im1 im2 image_width).height = im1.height + image_width
    ∧ ∀ x y, x < image_width → x < im1.width → y < image_width →
        (img_concat_v im1 im2 image_width).pix x (im1.height + y)
          = (resize im2 image_width image_width).pix x y := by
  refine ⟨rfl, rfl, ?_⟩
  intro x y hxw hx1 hyw
  simp only [img_concat_v, paste, newRGB, resize]
  rw [if_pos ⟨Nat.zero_le x, by omega, by omega, by omega⟩]
  simp

/-- C9 witness: dimensions and the pasted square at a concrete pair of
buffers and width 3. -/
theorem img_concat_v_spec_witness :
    (img_concat_v (solidImg 10 4) (solidImg 6 6) 3).width = 10
    ∧ (img_concat_v (solidImg 10 4) (solidImg 6 6) 3).height = 7
    ∧ (img_concat_v (solidImg 10 4) (solidImg 6 6) 3).pix 1 5
        = (resize (solidImg 6 6) 3 3).pix 1 1 := by
  have h := img_concat_v_spec (solidImg 10 4) (solidImg 6 6) 3
  exact ⟨h.1, h.2.1, h.2.2 1 1 (by decide) (by decide) (by decide)⟩

/-- C10: img_concat_v preserves the first buffer on the top rows, and
any part of the bottom band not covered by the pasted square is black
(0, 0, 0), the default fill of a new RGB canvas, not white. -/
theorem img_concat_v_frame (im1 im2 : PImage) (image_width : Nat) :
    (∀ x y, x < im1.width → y < im1.height →
        (img_concat_v im1 im2 image_width).pix x y = im1.pix x y)
    ∧ (∀ x y, image_width ≤ x → x < im1.width →
        im1.height ≤ y → y < im1.height + image_width →
        (img_concat_v im1 im2 image_width).pix x y = (0, 0, 0))
    ∧ ((0, 0, 0) : Nat × Nat × Nat) ≠ (255, 255, 255) := by
  refine ⟨?_, ?_, by decide⟩
  · intro x y hx hy
    simp only [img_concat_v, paste, newRGB, resize]
    rw [if_neg (by rintro ⟨c1, c2, c3, c4⟩; omega)]
    rw [if_pos ⟨Nat.zero_le x, by omega, Nat.zero_le y, by omega⟩]
    simp
  · intro x y hwx hx hy1 hy2
    simp only [img_concat_v, paste, newRGB, resize]
    rw [if_neg (by rintro ⟨c1, c2, c3, c4⟩; omega)]
    rw [if_neg (by rintro ⟨c1, c2, c3, c4⟩; omega)]

/-- C10 witness: at a concrete pair of buffers and width 3, a top-row
pixel is the first buffer pixel and an uncovered bottom pixel is
black. -/
theorem img_concat_v_frame_witness :
    (img_concat_v (solidImg 10 4) (solidImg 6 6) 3).pix 2 1 = (90, 100, 110)
    ∧ (img_concat_v (solidImg 10 4) (solidImg 6 6) 3).pix 5 6 = (0, 0, 0) := by
  have h := img_concat_v_frame (solidImg 10 4) (solidImg 6 6) 3
  exact ⟨h.1 2 1 (by decide) (by decide),
    h.2.1 5 6 (by decide) (by decide) (by decide) (by decide)⟩

lemma resizedForTiling_width (image : PImage) (label_width : Nat) :
    (resizedForTiling image label_width).width = label_width := by
  by_cases h : image.width = label_width
  · simp [resizedForTiling, h]
  · simp [resizedForTiling, resize, h]

/-- C2 counterexample: with a 100-pixel-wide source, a 100 mm target at
300 DPI and a 500-pixel label, resize_image_to_width computes a pixel
target of 1181, exceeds the label width and returns a 1181-pixel-wide
buffer: the output width is not the label width. -/
theorem resize_image_to_width_exceeds_label :
    (resize_image_to_width (solidImg 100 80) 100 500 300).width ≠ 500 := by
  decide

/-- C2 amended: preper_image outputs and every tile of
split_image_into_tiles have width exactly label_width; the output of
resize_image_to_width has width label_width when the computed pixel
target is smaller (narrower content is centre-padded onto a white
canvas), but has the larger width target_width_px, with no clamping,
when the computed target is at least the label width. -/
theorem pipeline_width_invariant :
    (∀ (image : PImage) (label_width : Nat), 0 < image.width →
        (preper_image image label_width).1.width = label_width
          ∧ (preper_image image label_width).2.width = label_width)
    ∧ (∀ (image : PImage) (label_width num_rows : Nat) (ts : List PImage),
        split_image_into_tiles image label_width num_rows = some ts →
        ∀ t ∈ ts, t.width = label_width)
    ∧ (∀ (image : PImage) (target_width_mm label_width current_dpi : Nat),
        (targetWidthPx target_width_mm current_dpi < label_width →
          (resize_image_to_width image target_width_mm label_width
              current_dpi).width = label_width
          ∧ (∀ x y,
              (x < (label_width - targetWidthPx target_width_mm current_dpi) / 2
                ∨ (label_width - targetWidthPx target_width_mm current_dpi) / 2
                    + targetWidthPx target_width_mm current_dpi ≤ x) →
              (resize_image_to_width image target_width_mm label_width
                  current_dpi).pix x y = (255, 255, 255)))
        ∧ (label_width ≤ targetWidthPx target_width_mm current_dpi →
            (resize_image_to_width image target_width_mm label_width
                current_dpi).width
              = targetWidthPx target_width_mm current_dpi)) := by
  refine ⟨?_, ?_, ?_⟩
  · intro image label_width hw
    by_cases h : image.width = label_width
    · constructor
      · simp [preper_image, convertL, h]
      · simp [preper_image, convertL, ditherFS, h]
    · constructor
      · simp [preper_image, convertL, resize, h]
      · simp [preper_image, convertL, ditherFS, resize, h]
  · intro image label_width num_rows ts hsp t ht
    by_cases hn : num_rows = 0
    · rw [split_image_into_tiles, if_pos hn] at hsp
      exact absurd hsp (by simp)
    · rw [split_image_into_tiles, if_neg hn] at hsp
      obtain rfl := Option.some.inj hsp
      have hwid := foldl_tiles_widths (resizedForTiling image label_width)
        (resizedForTiling image label_width).width
        ((resizedForTiling image label_width).height / num_rows)
        ((resizedForTiling image label_width).height % num_rows) num_rows
        (List.range num_rows) 0 []
      simp only [List.map_nil, List.nil_append] at hwid
      have hmem := List.mem_map_of_mem PImage.width ht
      rw [hwid] at hmem
      obtain ⟨i, hi, heq⟩ := List.mem_map.mp hmem
      rw [← heq]
      exact resizedForTiling_width image label_width
  · intro image target_width_mm label_width current_dpi
    constructor
    · intro hlt
      constructor
      · simp [resize_image_to_width, paste, newRGB, hlt]
      · intro x y hx
        simp only [resize_image_to_width]
        rw [if_pos hlt]
        simp only [paste, newRGB, resize]
        rw [if_neg (by rintro ⟨c1, c2, c3, c4⟩; rcases hx with h | h <;> omega)]
    · intro hge
      have hnlt : ¬ (targetWidthPx target_width_mm current_dpi < label_width) := by
        omega
      simp [resize_image_to_width, resize, hnlt]

/-- C2 amended witness: the width invariant exercised on concrete
inputs: preper_image at label width 591, the two tiles of a 591 by 1001
buffer, a 10 mm target padded to label width 591 with white fill at the
left edge, and a 100 mm target at label width 500 that keeps its larger
computed width. -/
theorem pipeline_width_invariant_witness :
    (preper_image (solidImg 100 80) 591).1.width = 591
    ∧ (∀ t ∈ tsW, t.width = 591)
    ∧ (resize_image_to_width (solidImg 100 80) 10 591 300).width = 591
    ∧ (resize_image_to_width (solidImg 100 80) 10 591 300).pix 0 0
        = (255, 255, 255)
    ∧ (resize_image_to_width (solidImg 100 80) 100 500 300).width
        = targetWidthPx 100 300 := by
  refine ⟨(pipeline_width_invariant.1 (solidImg 100 80) 591 (by decide)).1,
    pipeline_width_invariant.2.1 (solidImg 591 1001) 591 2 tsW rfl,
    ((pipeline_width_invariant.2.2 (solidImg 100 80) 10 591 300).1
      (by decide)).1,
    ((pipeline_width_invariant.2.2 (solidImg 100 80) 10 591 300).1
      (by decide)).2 0 0 (Or.inl (by decide)),
    (pipeline_width_invariant.2.2 (solidImg 100 80) 100 500 300).2
      (by decide)⟩

end StickerFactory
